import Mathlib

/-!
Verification of the Cody autocomplete completions-cache core
(`vscode/src/completions/create-inline-completion-item-provider.ts`,
`CompletionsCache` and friends) and of the artificial-latency controller
(`getArtificialDelay`).

Strings are modelled as lists of characters (`Str`); JavaScript string
operations (`slice`, `indexOf`, concatenation) become the corresponding
list operations.  The bounded LRU map provided by the `lru-cache` npm
package is modelled as a recency-ordered association list (most recently
used first) with capacity enforced by `List.take`.
-/

set_option maxRecDepth 4000

abbrev Str := List Char

/-- Convert a Lean string literal to the `Str` model. -/
def str (s : String) : Str := s.data

/-- `Completion` — `{ content: string }`. -/
structure Completion where
  content : Str
deriving DecidableEq

/-- `CachedCompletions` — `{ logId: string, completions: Completion[] }`. -/
structure CachedCompletions where
  logId : Str
  completions : List Completion
deriving DecidableEq

/-- `CompletionsCacheDocumentState` — `{ prefix, suffix, languageId }`.
The first field is called `prefix` in the source; `prefix` is a reserved
word in Lean, so it is named `pre` here. -/
structure CompletionsCacheDocumentState where
  pre : Str
  suffix : Str
  languageId : Str
deriving DecidableEq

/-- `CacheRequest` — a document state plus the `isExactPrefixOnly` flag
(optional in the source, defaulting to false; modelled as a plain Bool). -/
structure CacheRequest where
  documentState : CompletionsCacheDocumentState
  isExactPrefixOnly : Bool
deriving DecidableEq

/-- Modelled from the spec: `trimEndOnLastLineIfWhitespaceOnly` is imported
from `../text-processing`, which is not part of the sources; per the spec,
trimming "only ever removes trailing whitespace-only content on the final
line of the prefix" (so trailing non-newline whitespace characters are
dropped, and nothing before or including the last newline is touched). -/
def trimEndOnLastLineIfWhitespaceOnly (text : Str) : Str :=
  (text.reverse.dropWhile (fun c => c == ' ' || c == '\t')).reverse

/-- `CACHE_KEY_DOCUMENT_CONTENT_PREFIX_SUFFIX_LENGTH = 200`. -/
def CACHE_KEY_DOCUMENT_CONTENT_PREFIX_SUFFIX_LENGTH : Nat := 200

/-- The literal separator `<|>` used in the cache-key template string. -/
def keySep : Str := ['<', '|', '>']

/-- `cacheKey({prefix, suffix, languageId})` — the template string
`` `${languageId}<|>${prefix.slice(-200)}<|>${suffix.slice(0, 200)}` ``.
JavaScript `s.slice(-n)` keeps the last `min(n, length)` characters and
`s.slice(0, n)` keeps the first `n`. -/
def cacheKey (d : CompletionsCacheDocumentState) : Str :=
  d.languageId ++ keySep ++
    d.pre.drop (d.pre.length - CACHE_KEY_DOCUMENT_CONTENT_PREFIX_SUFFIX_LENGTH) ++
    keySep ++ d.suffix.take CACHE_KEY_DOCUMENT_CONTENT_PREFIX_SUFFIX_LENGTH

/-- The bounded LRU map from the `lru-cache` npm package, modelled as a
recency-ordered association list (head = most recently used) with the
configured maximum entry count. -/
structure LRUCache where
  entries : List (Str × CachedCompletions)
  maxSize : Nat
deriving DecidableEq

namespace LRUCache

/-- Recency-free read of a key (used for `has` + the read feeding `set`). -/
def lookup (c : LRUCache) (k : Str) : Option CachedCompletions :=
  (c.entries.find? (fun e => decide (e.1 = k))).map (fun e => e.2)

/-- `cache.get(key)` — returns the stored value and promotes the entry to
most-recently-used. -/
def getLRU (c : LRUCache) (k : Str) : Option CachedCompletions × LRUCache :=
  match c.entries.find? (fun e => decide (e.1 = k)) with
  | none => (none, c)
  | some e =>
    (some e.2, ⟨(k, e.2) :: c.entries.filter (fun e2 => decide (e2.1 ≠ k)), c.maxSize⟩)

/-- `cache.set(key, value)` — inserts/overwrites at most-recently-used
position and evicts from the least-recently-used end once over capacity. -/
def setLRU (c : LRUCache) (k : Str) (v : CachedCompletions) : LRUCache :=
  ⟨((k, v) :: c.entries.filter (fun e => decide (e.1 ≠ k))).take c.maxSize, c.maxSize⟩

/-- `cache.clear()`. -/
def clearLRU (c : LRUCache) : LRUCache := ⟨[], c.maxSize⟩

end LRUCache

/-- The `CompletionsCache` class: a private `LRUCache` with `max: 500`. -/
structure CompletionsCache where
  cache : LRUCache
deriving DecidableEq

namespace CompletionsCache

/-- A freshly constructed `CompletionsCache` (`new LRUCache({max: 500})`). -/
def new : CompletionsCache := ⟨⟨[], 500⟩⟩

/-- `clear()`. -/
def clear (c : CompletionsCache) : CompletionsCache := ⟨c.cache.clearLRU⟩

/-- `get({documentState, isExactPrefixOnly})` — trims the prefix unless the
exact-prefix mode is requested, builds the key, and reads the LRU cache
(which promotes the entry; the updated cache is returned alongside). -/
def get (c : CompletionsCache) (req : CacheRequest) :
    Option CachedCompletions × CompletionsCache :=
  let trimmedPre :=
    if req.isExactPrefixOnly then req.documentState.pre
    else trimEndOnLastLineIfWhitespaceOnly req.documentState.pre
  let key := cacheKey { req.documentState with pre := trimmedPre }
  let r := c.cache.getLRU key
  (r.1, ⟨r.2⟩)

/-- `insertCompletion(key, logId, completion)` — appends to any existing
completions for the key and stores under the given (fresh) logId. -/
def insertCompletion (c : CompletionsCache) (key : Str) (logId : Str)
    (completion : Completion) : CompletionsCache :=
  let existingCompletions : List Completion :=
    match c.cache.lookup key with
    | some e => e.completions
    | none => []
  ⟨c.cache.setLRU key ⟨logId, existingCompletions ++ [completion]⟩⟩

/-- JavaScript `content.indexOf('\n', start)`: the least index `≥ start`
holding the character, if any. -/
def idxOfFrom (l : Str) (c : Char) (s : Nat) : Option Nat :=
  match (l.drop s).findIdx? (fun x => x == c) with
  | some j => some (s + j)
  | none => none

/-- The number of iterations of the per-offset loop in `add`:
`maxCharsAppended` is the JavaScript value (−1 when the content is empty
and has no newline), and the loop runs for `0 ≤ i ≤ maxCharsAppended`. -/
def appendLoopCount (content : Str) : Nat :=
  let startIdx : Nat := if content.head? = some '\n' then 1 else 0
  let maxCharsAppended : Int :=
    match idxOfFrom content '\n' startIdx with
    | some j => (j : Int)
    | none => (content.length : Int) - 1
  if maxCharsAppended < 0 then 0 else maxCharsAppended.toNat + 1

/-- `add(logId, documentState, completions)`. -/
def add (c : CompletionsCache) (logId : Str)
    (documentState : CompletionsCacheDocumentState)
    (completions : List Completion) : CompletionsCache :=
  let trimmedPre := trimEndOnLastLineIfWhitespaceOnly documentState.pre
  completions.foldl (fun acc completion =>
    let acc1 :=
      if trimmedPre ≠ documentState.pre then
        acc.insertCompletion (cacheKey documentState) logId completion
      else acc
    (List.range (appendLoopCount completion.content)).foldl (fun acc2 i =>
      let completionPreToAppend := completion.content.take i
      let partialCompletionContent := completion.content.drop i
      let appendedPre := trimmedPre ++ completionPreToAppend
      acc2.insertCompletion (cacheKey { documentState with pre := appendedPre })
        logId ⟨partialCompletionContent⟩) acc1) c

end CompletionsCache

/-! ### Latency controller (`getArtificialDelay`) -/

/-- `defaultLatencies = { user: 50, lowPerformance: 1000, max: 1400 }`. -/
structure LatencyDefaults where
  user : Nat
  lowPerformance : Nat
  max : Nat

def defaultLatencies : LatencyDefaults := ⟨50, 1000, 1400⟩

/-- `lowPerformanceLanguageIds`. -/
def lowPerformanceLanguageIds : List Str :=
  [str "css", str "html", str "scss", str "vue", str "dart", str "json",
   str "yaml", str "postcss", str "markdown", str "plaintext", str "xml",
   str "twig", str "jsonc", str "handlebars"]

/-- `lowPerformanceCompletionIntents`. -/
def lowPerformanceCompletionIntents : List Str :=
  [str "comment", str "import.source"]

/-- The parameter record of `getArtificialDelay`; an absent
`completionIntent` is `none`. -/
structure ArtificialDelayParams where
  languageId : Str
  codyAutocompleteDisableLowPerfLangDelay : Bool
  completionIntent : Option Str
deriving DecidableEq

/-- `getArtificialDelay(params)` — baseline selection followed by
`Math.max(baseline, defaultLatencies.max)`; the `logDebug` call is a pure
observability side effect and is not modelled. -/
def getArtificialDelay (params : ArtificialDelayParams) : Nat :=
  let isLowPerformanceLanguageId :=
    lowPerformanceLanguageIds.contains params.languageId
  let isLowPerformanceCompletionIntent :=
    match params.completionIntent with
    | some intent => lowPerformanceCompletionIntents.contains intent
    | none => false
  let baseline : Nat :=
    if isLowPerformanceLanguageId || isLowPerformanceCompletionIntent then
      if !params.codyAutocompleteDisableLowPerfLangDelay then
        defaultLatencies.lowPerformance
      else 0
    else 0
  Nat.max baseline defaultLatencies.max

/-! ### Basic lemmas about the LRU association list and `insertCompletion` -/

lemma filter_ne_of_fresh {E : List (Str × CachedCompletions)} {k : Str}
    (h : ∀ e ∈ E, e.1 ≠ k) : E.filter (fun e => !decide (e.1 = k)) = E :=
  List.filter_eq_self.mpr (fun e he => by simp [h e he])

lemma find?_none_of_fresh {E : List (Str × CachedCompletions)} {k : Str}
    (h : ∀ e ∈ E, e.1 ≠ k) : E.find? (fun e => decide (e.1 = k)) = none :=
  List.find?_eq_none.mpr (fun e he => by simpa using h e he)

lemma LRUCache.lookup_none_of_fresh (c : LRUCache) (k : Str)
    (h : ∀ e ∈ c.entries, e.1 ≠ k) : c.lookup k = none := by
  simp [LRUCache.lookup, find?_none_of_fresh h]

namespace CompletionsCache

/-- Inserting at a key absent from the cache conses a fresh singleton entry
(and clips at capacity). -/
lemma insertCompletion_fresh (c : CompletionsCache) (k logId : Str)
    (comp : Completion) (h : ∀ e ∈ c.cache.entries, e.1 ≠ k) :
    c.insertCompletion k logId comp =
      ⟨⟨((k, ⟨logId, [comp]⟩) :: c.cache.entries).take c.cache.maxSize,
        c.cache.maxSize⟩⟩ := by
  simp [insertCompletion, LRUCache.setLRU,
    LRUCache.lookup_none_of_fresh _ _ h, filter_ne_of_fresh h]

/-- Inserting at the most-recently-used key appends to its completion list
and overwrites its logId. -/
lemma insertCompletion_found (c : CompletionsCache) (k logId : Str)
    (comp : Completion) (v : CachedCompletions)
    (rest : List (Str × CachedCompletions))
    (h : c.cache.entries = (k, v) :: rest) :
    c.insertCompletion k logId comp =
      ⟨⟨((k, ⟨logId, v.completions ++ [comp]⟩) ::
          rest.filter (fun e => decide (e.1 ≠ k))).take c.cache.maxSize,
        c.cache.maxSize⟩⟩ := by
  simp [insertCompletion, LRUCache.lookup, LRUCache.setLRU, h]

lemma appendLoopCount_nil : appendLoopCount [] = 0 := by decide

lemma appendLoopCount_singleton (a : Char) : appendLoopCount [a] = 1 := by
  by_cases h : a = '\n'
  · subst h; decide
  · simp [appendLoopCount, idxOfFrom, List.findIdx?_cons, List.findIdx?_nil,
      List.head?, h]

/-- `add` with a single one-character completion and an already-trimmed
prefix performs exactly one insertion, at the key of the document state. -/
lemma add_single_char (c : CompletionsCache) (logId : Str)
    (ds : CompletionsCacheDocumentState) (a : Char)
    (h : trimEndOnLastLineIfWhitespaceOnly ds.pre = ds.pre) :
    c.add logId ds [⟨[a]⟩] = c.insertCompletion (cacheKey ds) logId ⟨[a]⟩ := by
  simp only [add, List.foldl_cons, List.foldl_nil, appendLoopCount_singleton,
    h, ne_eq, not_true_eq_false, if_false, ite_false]
  show List.foldl _ c (List.range 1) = _
  simp only [List.range_succ, List.range_zero, List.nil_append,
    List.foldl_cons, List.foldl_nil, List.take_zero, List.drop_zero,
    List.append_nil]

/-- `add` with a single empty-content completion and an already-trimmed
prefix is the identity. -/
lemma add_empty_content (c : CompletionsCache) (logId : Str)
    (ds : CompletionsCacheDocumentState)
    (h : trimEndOnLastLineIfWhitespaceOnly ds.pre = ds.pre) :
    c.add logId ds [⟨[]⟩] = c := by
  simp only [add, List.foldl_cons, List.foldl_nil, appendLoopCount_nil,
    h, ne_eq, not_true_eq_false, if_false, ite_false]
  show List.foldl _ c (List.range 0) = _
  rfl

end CompletionsCache

/-! ### C10 — empty-content completions insert nothing -/

/-- C10: `add` with a completion whose content is the empty string runs the
per-offset loop zero times; when the prefix additionally has no trailing
whitespace-only content on its last line the whole call leaves the cache
unchanged, so a lookup for the same document state on a previously empty
cache still misses. -/
theorem C10_theorem (logId : Str) (ds : CompletionsCacheDocumentState)
    (c : CompletionsCache)
    (h : trimEndOnLastLineIfWhitespaceOnly ds.pre = ds.pre) :
    c.add logId ds [⟨[]⟩] = c ∧
    (CompletionsCache.get (CompletionsCache.new.add logId ds [⟨[]⟩])
        ⟨ds, false⟩).1 = none := by
  refine ⟨CompletionsCache.add_empty_content c logId ds h, ?_⟩
  rw [CompletionsCache.add_empty_content _ logId ds h]
  simp [CompletionsCache.get, CompletionsCache.new, LRUCache.getLRU]

/-- C10, witness. -/
theorem C10_witness :
    CompletionsCache.new.add (str "x") ⟨str "foo", str "", str "ts"⟩ [⟨[]⟩] =
      CompletionsCache.new ∧
    (CompletionsCache.get
        (CompletionsCache.new.add (str "x") ⟨str "foo", str "", str "ts"⟩
          [⟨[]⟩]) ⟨⟨str "foo", str "", str "ts"⟩, false⟩).1 = none :=
  C10_theorem (str "x") ⟨str "foo", str "", str "ts"⟩ CompletionsCache.new
    (by decide)

/-! ### C7 — second `add` to the same key appends -/

/-- C7: two `add` calls resolving to the same cache key (here: the same
already-trimmed document state, with one-character completion contents so
each call performs a single insertion) accumulate: a subsequent lookup
returns the completions of both calls in call order, under the logId of the
second call. -/
theorem C7_theorem (l1 l2 : Str) (ds : CompletionsCacheDocumentState)
    (a b : Char)
    (h : trimEndOnLastLineIfWhitespaceOnly ds.pre = ds.pre) :
    (CompletionsCache.get
        ((CompletionsCache.new.add l1 ds [⟨[a]⟩]).add l2 ds [⟨[b]⟩])
        ⟨ds, false⟩).1 = some ⟨l2, [⟨[a]⟩, ⟨[b]⟩]⟩ := by
  rw [CompletionsCache.add_single_char _ l1 ds a h,
    CompletionsCache.add_single_char _ l2 ds b h]
  rw [CompletionsCache.insertCompletion_fresh CompletionsCache.new
      (cacheKey ds) l1 ⟨[a]⟩
      (by intro e he; simp [CompletionsCache.new] at he)]
  rw [CompletionsCache.insertCompletion_found _ (cacheKey ds) l2 ⟨[b]⟩
      ⟨l1, [⟨[a]⟩]⟩ [] rfl]
  have etads : ({ ds with pre := ds.pre } : CompletionsCacheDocumentState) =
      ds := rfl
  simp [CompletionsCache.get, LRUCache.getLRU, h, etads,
    CompletionsCache.new, List.find?_cons_of_pos]

/-- C7, witness. -/
theorem C7_witness :
    (CompletionsCache.get
        ((CompletionsCache.new.add (str "a") ⟨str "p", str "s", str "ts"⟩
            [⟨['x']⟩]).add (str "b") ⟨str "p", str "s", str "ts"⟩ [⟨['y']⟩])
        ⟨⟨str "p", str "s", str "ts"⟩, false⟩).1 =
      some ⟨str "b", [⟨['x']⟩, ⟨['y']⟩]⟩ :=
  C7_theorem (str "a") (str "b") ⟨str "p", str "s", str "ts"⟩ 'x' 'y'
    (by decide)

/-! ### C4 — cache-key construction and the `<|>` separator -/

/-- The truncated document state a cache key is meant to encode: language
id, last 200 characters of the prefix, first 200 characters of the
suffix. -/
def truncatedState (d : CompletionsCacheDocumentState) : Str × Str × Str :=
  (d.languageId,
   d.pre.drop (d.pre.length - CACHE_KEY_DOCUMENT_CONTENT_PREFIX_SUFFIX_LENGTH),
   d.suffix.take CACHE_KEY_DOCUMENT_CONTENT_PREFIX_SUFFIX_LENGTH)

/-- A string starting with `<|>` has `<|>` as an infix. -/
lemma sep_infix_of_start (t : Str) : keySep <:+: ('<' :: '|' :: '>' :: t) :=
  ⟨[], t, rfl⟩

/-- If `<|>` followed by anything equals a nonempty separator-free string
followed by `<|>` and anything, we get a contradiction. -/
lemma sep_nil_cons (x : Char) (t r1 r2 : Str)
    (h2 : ¬ keySep <:+: (x :: t))
    (heq : keySep ++ r1 = (x :: t) ++ (keySep ++ r2)) : False := by
  simp only [keySep, List.cons_append, List.nil_append, List.cons.injEq] at heq
  obtain ⟨hx, heq⟩ := heq
  cases t with
  | nil =>
    simp only [List.nil_append, List.cons.injEq] at heq
    exact absurd heq.1 (by decide)
  | cons y u =>
    simp only [List.cons_append, List.cons.injEq] at heq
    obtain ⟨hy, heq⟩ := heq
    cases u with
    | nil =>
      simp only [List.nil_append, List.cons.injEq] at heq
      exact absurd heq.1 (by decide)
    | cons z w =>
      simp only [List.cons_append, List.cons.injEq] at heq
      obtain ⟨hz, _⟩ := heq
      exact h2 (by rw [← hx, ← hy, ← hz]; exact sep_infix_of_start w)

/-- Cancellation around the separator: if neither left part contains `<|>`,
equal concatenations `a ++ <|> ++ r` determine both parts. -/
lemma sep_cancel (a1 : Str) : ∀ (a2 r1 r2 : Str),
    ¬ keySep <:+: a1 → ¬ keySep <:+: a2 →
    a1 ++ (keySep ++ r1) = a2 ++ (keySep ++ r2) → a1 = a2 ∧ r1 = r2 := by
  induction a1 with
  | nil =>
    intro a2 r1 r2 _ h2 heq
    cases a2 with
    | nil =>
      refine ⟨rfl, ?_⟩
      simpa [keySep] using heq
    | cons x t =>
      exact absurd heq (fun h => sep_nil_cons x t r1 r2 h2 (by simpa using h))
  | cons x t ih =>
    intro a2 r1 r2 h1 h2 heq
    cases a2 with
    | nil =>
      exact absurd heq.symm
        (fun h => sep_nil_cons x t r2 r1 h1 (by simpa using h))
    | cons y u =>
      simp only [List.cons_append, List.cons.injEq] at heq
      obtain ⟨hxy, heq⟩ := heq
      have ht : ¬ keySep <:+: t := fun hI => h1 (List.infix_cons hI)
      have hu : ¬ keySep <:+: u := fun hI => h2 (List.infix_cons hI)
      obtain ⟨he, hr⟩ := ih u r1 r2 ht hu heq
      exact ⟨by rw [hxy, he], hr⟩

/-- Separator-free cache keys determine the truncated document state. -/
lemma cacheKey_inj (d1 d2 : CompletionsCacheDocumentState)
    (hl1 : ¬ keySep <:+: d1.languageId) (hl2 : ¬ keySep <:+: d2.languageId)
    (hp1 : ¬ keySep <:+: (truncatedState d1).2.1)
    (hp2 : ¬ keySep <:+: (truncatedState d2).2.1)
    (h : cacheKey d1 = cacheKey d2) :
    truncatedState d1 = truncatedState d2 := by
  have h' := h
  simp only [cacheKey, List.append_assoc] at h'
  obtain ⟨hlang, hrest⟩ := sep_cancel _ _ _ _ hl1 hl2 h'
  obtain ⟨hP, hS⟩ := sep_cancel _ _ _ _ hp1 hp2 hrest
  simp only [truncatedState] at hP hS ⊢
  exact Prod.ext hlang (Prod.ext hP hS)

/-- C4, counterexample: the separator `<|>` can perfectly well occur in
document text, and then distinct truncated states can collide: prefix
`"b<|>c"` with language `"a"` and prefix `"c"` with language `"a<|>b"`
produce the same key. -/
theorem C4_counterexample :
    truncatedState ⟨str "b<|>c", str "", str "a"⟩ ≠
      truncatedState ⟨str "c", str "", str "a<|>b"⟩ ∧
    cacheKey ⟨str "b<|>c", str "", str "a"⟩ =
      cacheKey ⟨str "c", str "", str "a<|>b"⟩ := by decide

/-- C4, amended: the key function is injective on truncated document states
*whose language id and truncated prefix do not contain the separator
sequence `<|>`* — the separator is not in fact guaranteed never to occur in
source text, so injectivity holds only on separator-free components. -/
theorem C4_theorem (d1 d2 : CompletionsCacheDocumentState)
    (hl1 : ¬ keySep <:+: d1.languageId) (hl2 : ¬ keySep <:+: d2.languageId)
    (hp1 : ¬ keySep <:+: (truncatedState d1).2.1)
    (hp2 : ¬ keySep <:+: (truncatedState d2).2.1)
    (hne : truncatedState d1 ≠ truncatedState d2) :
    cacheKey d1 ≠ cacheKey d2 :=
  fun h => hne (cacheKey_inj d1 d2 hl1 hl2 hp1 hp2 h)

/-- C4, witness. -/
theorem C4_witness :
    cacheKey ⟨str "p", str "s", str "ts"⟩ ≠ cacheKey ⟨str "q", str "s", str "ts"⟩ :=
  C4_theorem ⟨str "p", str "s", str "ts"⟩ ⟨str "q", str "s", str "ts"⟩
    (by decide) (by decide) (by decide) (by decide) (by decide)

/-! ### C9 — key stability across identical windows -/

/-- Requests whose (mode-dependent) trimmed prefix yields the same key get
the same answer and leave the cache in the same state. -/
lemma get_eq_of_key_eq (c : CompletionsCache) (r1 r2 : CacheRequest)
    (h : cacheKey { r1.documentState with pre :=
          if r1.isExactPrefixOnly then r1.documentState.pre
          else trimEndOnLastLineIfWhitespaceOnly r1.documentState.pre } =
        cacheKey { r2.documentState with pre :=
          if r2.isExactPrefixOnly then r2.documentState.pre
          else trimEndOnLastLineIfWhitespaceOnly r2.documentState.pre }) :
    c.get r1 = c.get r2 := by
  simp only [CompletionsCache.get]
  rw [h]

/-- The prefix of spec-scenario shape used to exhibit trimming that reaches
beyond the 200-character key window: a marker character, a newline, then
200 spaces. -/
def wsPre (marker : Char) : Str := marker :: '\n' :: List.replicate 200 ' '

/-- A cache holding one completion added under `wsPre 'a'`. -/
def c9cache : CompletionsCache :=
  CompletionsCache.new.add (str "id") ⟨wsPre 'a', str "", str "ts"⟩
    [⟨str "c"⟩]

/-- C9, counterexample: two document states with identical truncated
windows (language, last-200 prefix, first-200 suffix) for which
default-mode `get` does *not* resolve to the same entry — whitespace
trimming inspects the untruncated prefix, and here it removes the entire
200-character window, exposing text beyond it. -/
theorem C9_counterexample :
    truncatedState ⟨wsPre 'a', str "", str "ts"⟩ =
      truncatedState ⟨wsPre 'b', str "", str "ts"⟩ ∧
    (c9cache.get ⟨⟨wsPre 'a', str "", str "ts"⟩, false⟩).1 ≠
      (c9cache.get ⟨⟨wsPre 'b', str "", str "ts"⟩, false⟩).1 := by decide

/-- C9, amended: for document states agreeing on language id and suffix
window, exact-prefix-mode lookups with equal raw-prefix windows resolve
identically; default-mode lookups resolve identically provided the
windows of the *trimmed* prefixes agree (equal raw windows alone are not
enough, since trimming can reach beyond the window). -/
theorem C9_theorem (c : CompletionsCache)
    (d1 d2 : CompletionsCacheDocumentState)
    (hL : d1.languageId = d2.languageId)
    (hS : d1.suffix.take CACHE_KEY_DOCUMENT_CONTENT_PREFIX_SUFFIX_LENGTH =
          d2.suffix.take CACHE_KEY_DOCUMENT_CONTENT_PREFIX_SUFFIX_LENGTH) :
    ((truncatedState d1).2.1 = (truncatedState d2).2.1 →
      c.get ⟨d1, true⟩ = c.get ⟨d2, true⟩) ∧
    ((truncatedState ⟨trimEndOnLastLineIfWhitespaceOnly d1.pre, d1.suffix,
          d1.languageId⟩).2.1 =
     (truncatedState ⟨trimEndOnLastLineIfWhitespaceOnly d2.pre, d2.suffix,
          d2.languageId⟩).2.1 →
      c.get ⟨d1, false⟩ = c.get ⟨d2, false⟩) := by
  constructor
  · intro hP
    simp only [truncatedState] at hP
    refine get_eq_of_key_eq c ⟨d1, true⟩ ⟨d2, true⟩ ?_
    show cacheKey { d1 with pre := d1.pre } =
      cacheKey { d2 with pre := d2.pre }
    simp only [cacheKey]
    rw [hL, hS, hP]
  · intro hP
    simp only [truncatedState] at hP
    refine get_eq_of_key_eq c ⟨d1, false⟩ ⟨d2, false⟩ ?_
    show cacheKey { d1 with pre := trimEndOnLastLineIfWhitespaceOnly d1.pre } =
      cacheKey { d2 with pre := trimEndOnLastLineIfWhitespaceOnly d2.pre }
    simp only [cacheKey]
    rw [hL, hS, hP]

/-- C9, witness. -/
theorem C9_witness :
    CompletionsCache.get c9cache
        ⟨⟨'x' :: List.replicate 200 'a', str "", str "ts"⟩, true⟩ =
      CompletionsCache.get c9cache
        ⟨⟨List.replicate 200 'a', str "", str "ts"⟩, true⟩ ∧
    CompletionsCache.get c9cache
        ⟨⟨'x' :: List.replicate 200 'a', str "", str "ts"⟩, false⟩ =
      CompletionsCache.get c9cache
        ⟨⟨List.replicate 200 'a', str "", str "ts"⟩, false⟩ :=
  ⟨(C9_theorem c9cache ⟨'x' :: List.replicate 200 'a', str "", str "ts"⟩
      ⟨List.replicate 200 'a', str "", str "ts"⟩ rfl rfl).1 (by decide),
   (C9_theorem c9cache ⟨'x' :: List.replicate 200 'a', str "", str "ts"⟩
      ⟨List.replicate 200 'a', str "", str "ts"⟩ rfl rfl).2 (by decide)⟩

/-! ### C5 — capacity bound, LRU eviction order, recency protection -/

/-- The public operations of `CompletionsCache`, for reasoning about
arbitrary operation sequences. -/
inductive CacheOp where
  | opGet : CacheRequest → CacheOp
  | opAdd : Str → CompletionsCacheDocumentState → List Completion → CacheOp
  | opClear : CacheOp

def applyOp (c : CompletionsCache) : CacheOp → CompletionsCache
  | .opGet req => (c.get req).2
  | .opAdd logId ds comps => c.add logId ds comps
  | .opClear => c.clear

/-- Run a sequence of operations against a freshly constructed cache. -/
def runOps (ops : List CacheOp) : CompletionsCache :=
  ops.foldl applyOp CompletionsCache.new

/-- The size invariant: the configured capacity is 500 and the entry count
never exceeds it. -/
def SizeInv (c : CompletionsCache) : Prop :=
  c.cache.maxSize = 500 ∧ c.cache.entries.length ≤ 500

lemma foldl_preserve {α β : Type} (P : α → Prop) (f : α → β → α)
    (hf : ∀ a b, P a → P (f a b)) :
    ∀ (l : List β) (a : α), P a → P (l.foldl f a) := by
  intro l
  induction l with
  | nil => intro a ha; exact ha
  | cons b t ih => intro a ha; exact ih _ (hf a b ha)

lemma LRUCache.setLRU_maxSize (c : LRUCache) (k : Str)
    (v : CachedCompletions) : (c.setLRU k v).maxSize = c.maxSize := rfl

lemma LRUCache.setLRU_length (c : LRUCache) (k : Str)
    (v : CachedCompletions) : (c.setLRU k v).entries.length ≤ c.maxSize := by
  simp only [LRUCache.setLRU]
  exact List.length_take_le _ _

lemma LRUCache.getLRU_maxSize (c : LRUCache) (k : Str) :
    ((c.getLRU k).2).maxSize = c.maxSize := by
  unfold LRUCache.getLRU
  cases hf : c.entries.find? (fun e => decide (e.1 = k)) <;> simp [hf]

lemma LRUCache.getLRU_length (c : LRUCache) (k : Str)
    (h : c.entries.length ≤ n) : ((c.getLRU k).2).entries.length ≤ n := by
  unfold LRUCache.getLRU
  cases hf : c.entries.find? (fun e => decide (e.1 = k)) with
  | none => simpa using h
  | some e =>
    have he : e.1 = k := by simpa using List.find?_some hf
    have hmem : e ∈ c.entries := List.mem_of_find?_eq_some hf
    have hlt : (c.entries.filter (fun e2 => decide (e2.1 ≠ k))).length <
        c.entries.length := by
      refine List.length_filter_lt_length_iff_exists.mpr ⟨e, hmem, ?_⟩
      simp [he]
    simp only [List.length_cons]
    omega

lemma insertCompletion_sizeInv (c : CompletionsCache) (k logId : Str)
    (comp : Completion) (h : SizeInv c) :
    SizeInv (c.insertCompletion k logId comp) := by
  obtain ⟨hmax, _⟩ := h
  refine ⟨by simpa [CompletionsCache.insertCompletion] using hmax, ?_⟩
  have := LRUCache.setLRU_length c.cache k
    ⟨logId, (match c.cache.lookup k with
             | some e => e.completions
             | none => []) ++ [comp]⟩
  simpa [CompletionsCache.insertCompletion, hmax] using this

lemma add_sizeInv (c : CompletionsCache) (logId : Str)
    (ds : CompletionsCacheDocumentState) (comps : List Completion)
    (h : SizeInv c) : SizeInv (c.add logId ds comps) := by
  unfold CompletionsCache.add
  refine foldl_preserve SizeInv _ ?_ comps c h
  intro a comp ha
  refine foldl_preserve SizeInv _ ?_ _ _ ?_
  · intro a2 i ha2
    exact insertCompletion_sizeInv _ _ _ _ ha2
  · dsimp only
    split
    · exact insertCompletion_sizeInv _ _ _ _ ha
    · exact ha

lemma get_sizeInv (c : CompletionsCache) (req : CacheRequest)
    (h : SizeInv c) : SizeInv ((c.get req).2) := by
  obtain ⟨hmax, hlen⟩ := h
  constructor
  · show ((c.cache.getLRU _).2).maxSize = 500
    rw [LRUCache.getLRU_maxSize]
    exact hmax
  · show ((c.cache.getLRU _).2).entries.length ≤ 500
    exact LRUCache.getLRU_length c.cache _ hlen

lemma applyOp_sizeInv (c : CompletionsCache) (op : CacheOp)
    (h : SizeInv c) : SizeInv (applyOp c op) := by
  cases op with
  | opGet req => exact get_sizeInv c req h
  | opAdd logId ds comps => exact add_sizeInv c logId ds comps h
  | opClear =>
    exact ⟨h.1, by
      show ([] : List (Str × CachedCompletions)).length ≤ 500
      simp⟩

/-- C5: (a) after any sequence of `get`/`add`/`clear` operations on a fresh
cache the number of entries never exceeds 500; (b) when an insertion of a
fresh key happens at capacity, exactly the least-recently-used (last) entry
is evicted, whole; (c) a `get` hit refreshes recency: after a hit on `k`, a
subsequent insertion of a fresh key keeps `k` cached (the eviction victim
is some key not touched since). -/
theorem C5_theorem :
    (∀ ops : List CacheOp, (runOps ops).cache.entries.length ≤ 500) ∧
    (∀ (c : LRUCache) (k : Str) (v : CachedCompletions),
      0 < c.maxSize → c.entries.length = c.maxSize →
      (∀ e ∈ c.entries, e.1 ≠ k) →
      (c.setLRU k v).entries.map Prod.fst =
        k :: (c.entries.map Prod.fst).dropLast) ∧
    (∀ (c : LRUCache) (k k' : Str) (v' : CachedCompletions),
      2 ≤ c.maxSize → k ≠ k' → ((c.getLRU k).1).isSome = true →
      k ∈ ((c.getLRU k).2.setLRU k' v').entries.map Prod.fst) := by
  refine ⟨?_, ?_, ?_⟩
  · intro ops
    exact (foldl_preserve SizeInv applyOp applyOp_sizeInv ops
      CompletionsCache.new ⟨rfl, by simp [CompletionsCache.new]⟩).2
  · intro c k v hpos hlen hfresh
    simp only [LRUCache.setLRU, ne_eq, decide_not]
    rw [filter_ne_of_fresh hfresh]
    obtain ⟨m, hm⟩ : ∃ m, c.maxSize = m + 1 := ⟨c.maxSize - 1, by omega⟩
    rw [hm, List.take_succ_cons, List.map_cons]
    rw [List.dropLast_eq_take, List.length_map, ← List.map_take]
    have hm2 : m = c.entries.length - 1 := by omega
    rw [hm2]
  · intro c k k' v' hmax hne hsome
    cases hf : c.entries.find? (fun e => decide (e.1 = k)) with
    | none => simp [LRUCache.getLRU, hf] at hsome
    | some e =>
      simp only [LRUCache.getLRU, hf, LRUCache.setLRU]
      rw [List.filter_cons]
      have : (decide ((k, e.2).1 ≠ k')) = true := by simp [hne]
      rw [if_pos this]
      obtain ⟨m, hm⟩ : ∃ m, c.maxSize = m + 2 := ⟨c.maxSize - 2, by omega⟩
      rw [hm]
      simp [List.take_succ_cons]

/-- C5, witness. -/
theorem C5_witness :
    (runOps [CacheOp.opAdd (str "id") ⟨str "foo", str "", str "ts"⟩
        [⟨str "bar"⟩]]).cache.entries.length ≤ 500 ∧
    ((⟨[(str "k1", ⟨str "l", []⟩)], 1⟩ : LRUCache).setLRU (str "k2")
        ⟨str "l2", []⟩).entries.map Prod.fst =
      str "k2" :: (([(str "k1", (⟨str "l", []⟩ : CachedCompletions))].map
        Prod.fst).dropLast) ∧
    str "a" ∈ (((⟨[(str "a", ⟨str "l", []⟩)], 2⟩ : LRUCache).getLRU
        (str "a")).2.setLRU (str "b") ⟨str "l2", []⟩).entries.map Prod.fst :=
  ⟨C5_theorem.1 _,
   C5_theorem.2.1 ⟨[(str "k1", ⟨str "l", []⟩)], 1⟩ (str "k2") ⟨str "l2", []⟩
     (by decide) (by decide) (by decide),
   C5_theorem.2.2 ⟨[(str "a", ⟨str "l", []⟩)], 2⟩ (str "a") (str "b")
     ⟨str "l2", []⟩ (by decide) (by decide) (by decide)⟩

/-! ### C3 — newline-free completions populate offsets 0 through N−1 -/

/-- The key inserted by `add`'s per-offset loop at offset `i`: the key of
the document state whose prefix is the (trimmed) prefix extended by the
first `i` characters of the completion. -/
def c3key (p suf lang content : Str) (i : Nat) : Str :=
  cacheKey ⟨p ++ content.take i, suf, lang⟩

/-- The cache obtained by folding the per-offset insertions for offsets
`0 … m−1` over a fresh cache. -/
def c3fold (p suf lang logId content : Str) (m : Nat) : CompletionsCache :=
  (List.range m).foldl
    (fun acc i => acc.insertCompletion (c3key p suf lang content i) logId
      ⟨content.drop i⟩)
    CompletionsCache.new

/-- For nonempty newline-free content the per-offset loop of `add` runs
`content.length` times (offsets `0 … length−1`): `indexOf` finds no newline
so `maxCharsAppended` is `length − 1`. -/
lemma appendLoopCount_no_newline (content : Str) (hnl : '\n' ∉ content)
    (hN : 1 ≤ content.length) :
    CompletionsCache.appendLoopCount content = content.length := by
  have hhead : ¬ (content.head? = some '\n') := by
    cases content with
    | nil => simp
    | cons a t =>
      simp only [List.head?, Option.some.injEq]
      intro h
      exact hnl (by simp [h])
  have hfind : content.findIdx? (fun x => x == '\n') = none := by
    refine List.findIdx?_eq_none_iff.mpr ?_
    intro x hx
    simp only [beq_eq_false_iff_ne, ne_eq]
    intro h
    subst h
    exact hnl hx
  unfold CompletionsCache.appendLoopCount
  rw [if_neg hhead]
  unfold CompletionsCache.idxOfFrom
  dsimp only [List.drop_zero]
  rw [hfind]
  dsimp only
  rw [if_neg (by omega)]
  omega

/-- `add` of one nonempty newline-free completion with an already-trimmed
prefix is exactly the per-offset insertion fold. -/
lemma add_eq_c3fold (logId : Str) (ds : CompletionsCacheDocumentState)
    (content : Str)
    (h : trimEndOnLastLineIfWhitespaceOnly ds.pre = ds.pre)
    (hnl : '\n' ∉ content) (hN : 1 ≤ content.length) :
    CompletionsCache.new.add logId ds [⟨content⟩] =
      c3fold ds.pre ds.suffix ds.languageId logId content content.length := by
  simp only [CompletionsCache.add, List.foldl_cons, List.foldl_nil, h, ne_eq,
    not_true_eq_false, if_false, ite_false,
    appendLoopCount_no_newline content hnl hN]
  rfl

/-- Distinct in-range offsets produce distinct keys, because within the
200-character window the embedded prefix fragments have distinct lengths. -/
lemma c3key_inj (p suf lang content : Str)
    (hwin : p.length + content.length ≤
      CACHE_KEY_DOCUMENT_CONTENT_PREFIX_SUFFIX_LENGTH)
    {i j : Nat} (hi : i ≤ content.length) (hj : j ≤ content.length)
    (hne : i ≠ j) :
    c3key p suf lang content i ≠ c3key p suf lang content j := by
  intro h
  have hlen := congrArg List.length h
  simp only [c3key, cacheKey, keySep, List.length_append, List.length_take,
    List.length_drop, CACHE_KEY_DOCUMENT_CONTENT_PREFIX_SUFFIX_LENGTH,
    List.length_cons, List.length_nil] at hlen
  simp only [CACHE_KEY_DOCUMENT_CONTENT_PREFIX_SUFFIX_LENGTH] at hwin
  omega

/-- The entries of the per-offset fold: one singleton entry per offset,
most recent (largest offset) first. -/
lemma c3fold_entries (p suf lang logId content : Str)
    (hwin : p.length + content.length ≤
      CACHE_KEY_DOCUMENT_CONTENT_PREFIX_SUFFIX_LENGTH) :
    ∀ m, m ≤ content.length →
      (c3fold p suf lang logId content m).cache =
        ⟨(List.range m).reverse.map
           (fun i => (c3key p suf lang content i,
                      ⟨logId, [⟨content.drop i⟩]⟩)), 500⟩ := by
  intro m
  induction m with
  | zero => intro _; rfl
  | succ m ih =>
    intro hm
    have hmN : m ≤ content.length := by omega
    have hwin200 : content.length ≤ 200 := by
      have := hwin
      simp only [CACHE_KEY_DOCUMENT_CONTENT_PREFIX_SUFFIX_LENGTH] at this
      omega
    have hstep : c3fold p suf lang logId content (m + 1) =
        (c3fold p suf lang logId content m).insertCompletion
          (c3key p suf lang content m) logId ⟨content.drop m⟩ := by
      unfold c3fold
      rw [List.range_succ, List.foldl_append, List.foldl_cons, List.foldl_nil]
    have hentries : (c3fold p suf lang logId content m).cache.entries =
        (List.range m).reverse.map
          (fun i => (c3key p suf lang content i,
                     ⟨logId, [⟨content.drop i⟩]⟩)) :=
      congrArg LRUCache.entries (ih hmN)
    have hmax : (c3fold p suf lang logId content m).cache.maxSize = 500 :=
      congrArg LRUCache.maxSize (ih hmN)
    have hfresh : ∀ e ∈ (c3fold p suf lang logId content m).cache.entries,
        e.1 ≠ c3key p suf lang content m := by
      intro e he
      rw [hentries] at he
      simp only [List.mem_map, List.mem_reverse, List.mem_range] at he
      obtain ⟨i, hilt, rfl⟩ := he
      exact c3key_inj p suf lang content hwin (by omega) hmN (by omega)
    rw [hstep, CompletionsCache.insertCompletion_fresh _ _ _ _ hfresh,
      hentries, hmax]
    rw [List.take_of_length_le (by
      simp only [List.length_cons, List.length_map, List.length_reverse,
        List.length_range]
      omega)]
    simp [List.range_succ, List.reverse_append]

/-- `find?` on an association list returns a present key's entry when that
entry is the unique one carrying the key. -/
lemma find?_of_mem_of_unique {E : List (Str × CachedCompletions)} {k : Str}
    {v : CachedCompletions} (hmem : (k, v) ∈ E)
    (huniq : ∀ e ∈ E, e.1 = k → e = (k, v)) :
    E.find? (fun e => decide (e.1 = k)) = some (k, v) := by
  induction E with
  | nil => cases hmem
  | cons a t ih =>
    by_cases ha : a.1 = k
    · have hav : a = (k, v) := huniq a (List.mem_cons_self a t) ha
      subst hav
      exact List.find?_cons_of_pos t (by simp [ha])
    · rw [List.find?_cons_of_neg t (by simpa using ha)]
      refine ih ?_ ?_
      · rcases List.mem_cons.mp hmem with h | h
        · exact absurd (by rw [← h]) ha
        · exact h
      · intro e he h'
        exact huniq e (List.mem_cons_of_mem a he) h'

/-- `get` on a key absent from the LRU map misses and leaves it unchanged. -/
lemma LRUCache.getLRU_none (c : LRUCache) (k : Str)
    (h : ∀ e ∈ c.entries, e.1 ≠ k) : c.getLRU k = (none, c) := by
  unfold LRUCache.getLRU
  rw [find?_none_of_fresh h]

/-- The cache of the C3 counterexample: `add` of the newline-free completion
`"bar"` (N = 3) against prefix `"foo"`. -/
def c3cache : CompletionsCache :=
  CompletionsCache.new.add (str "id") ⟨str "foo", str "", str "ts"⟩
    [⟨str "bar"⟩]

/-- C3, counterexample: the claim predicts N+1 = 4 entries including one at
the fully-typed prefix `"foobar"` with empty remaining content, and a hit
there; the code's per-offset loop stops at offset N−1, stores only 3
entries, and `get` on the fully-typed prefix misses. -/
theorem C3_counterexample :
    (c3cache.get ⟨⟨str "foobar", str "", str "ts"⟩, false⟩).1 = none ∧
    c3cache.cache.entries.length = 3 := by decide

/-- C3, amended: for a completion with newline-free content of length
`N ≥ 1` (prefix already trimmed and small enough that key windows are
injective), `add` inserts an incremental entry for every offset `i` from 0
through `N − 1` — `N` entries, not `N + 1` — the entry at offset `i` keyed
by the trimmed prefix plus the first `i` characters and storing the
remaining characters from `i` on; no entry exists at offset `N`, so a `get`
on the fully-typed prefix (when it needs no trimming) misses. -/
theorem C3_theorem (p suf lang logId content : Str)
    (htrim : trimEndOnLastLineIfWhitespaceOnly p = p)
    (hN : 1 ≤ content.length) (hnl : '\n' ∉ content)
    (hwin : p.length + content.length ≤
      CACHE_KEY_DOCUMENT_CONTENT_PREFIX_SUFFIX_LENGTH) :
    (∀ i < content.length,
      (CompletionsCache.new.add logId ⟨p, suf, lang⟩ [⟨content⟩]).cache.lookup
          (c3key p suf lang content i) =
        some ⟨logId, [⟨content.drop i⟩]⟩) ∧
    (CompletionsCache.new.add logId ⟨p, suf, lang⟩ [⟨content⟩]).cache.lookup
        (c3key p suf lang content content.length) = none ∧
    (CompletionsCache.new.add logId ⟨p, suf, lang⟩
        [⟨content⟩]).cache.entries.length = content.length ∧
    (trimEndOnLastLineIfWhitespaceOnly (p ++ content) = p ++ content →
      ((CompletionsCache.new.add logId ⟨p, suf, lang⟩ [⟨content⟩]).get
          ⟨⟨p ++ content, suf, lang⟩, false⟩).1 = none) := by
  have hadd : CompletionsCache.new.add logId ⟨p, suf, lang⟩ [⟨content⟩] =
      c3fold p suf lang logId content content.length :=
    add_eq_c3fold logId ⟨p, suf, lang⟩ content htrim hnl hN
  have hent := c3fold_entries p suf lang logId content hwin
    content.length le_rfl
  have hentries := congrArg LRUCache.entries hent
  have hfreshN : ∀ e ∈ (c3fold p suf lang logId content
      content.length).cache.entries,
      e.1 ≠ c3key p suf lang content content.length := by
    intro e he
    rw [hentries] at he
    simp only [List.mem_map, List.mem_reverse, List.mem_range] at he
    obtain ⟨j, hj, rfl⟩ := he
    exact c3key_inj p suf lang content hwin (by omega) le_rfl (by omega)
  refine ⟨?_, ?_, ?_, ?_⟩
  · intro i hi
    rw [hadd]
    have hmem : (c3key p suf lang content i,
        (⟨logId, [⟨content.drop i⟩]⟩ : CachedCompletions)) ∈
        (c3fold p suf lang logId content content.length).cache.entries := by
      rw [hentries]
      simp only [List.mem_map, List.mem_reverse, List.mem_range]
      exact ⟨i, hi, rfl⟩
    have huniq : ∀ e ∈ (c3fold p suf lang logId content
        content.length).cache.entries,
        e.1 = c3key p suf lang content i →
        e = (c3key p suf lang content i,
          (⟨logId, [⟨content.drop i⟩]⟩ : CachedCompletions)) := by
      intro e he hek
      rw [hentries] at he
      simp only [List.mem_map, List.mem_reverse, List.mem_range] at he
      obtain ⟨j, hj, rfl⟩ := he
      by_cases hji : j = i
      · subst hji; rfl
      · exact absurd hek
          (c3key_inj p suf lang content hwin (by omega) (by omega) hji)
    unfold LRUCache.lookup
    rw [find?_of_mem_of_unique hmem huniq]
    rfl
  · rw [hadd]
    exact LRUCache.lookup_none_of_fresh _ _ hfreshN
  · rw [hadd, hentries]
    simp
  · intro htrimFull
    rw [hadd]
    show ((c3fold p suf lang logId content content.length).cache.getLRU
        (cacheKey ⟨trimEndOnLastLineIfWhitespaceOnly (p ++ content), suf,
          lang⟩)).1 = none
    have hkey : cacheKey ⟨trimEndOnLastLineIfWhitespaceOnly (p ++ content),
        suf, lang⟩ = c3key p suf lang content content.length := by
      rw [htrimFull]
      simp [c3key, List.take_length]
    rw [hkey, LRUCache.getLRU_none _ _ hfreshN]

/-- C3, witness. -/
theorem C3_witness :
    (CompletionsCache.new.add (str "id") ⟨str "foo", str "", str "ts"⟩
        [⟨str "bar"⟩]).cache.lookup
        (c3key (str "foo") (str "") (str "ts") (str "bar") 1) =
      some ⟨str "id", [⟨(str "bar").drop 1⟩]⟩ ∧
    (CompletionsCache.new.add (str "id") ⟨str "foo", str "", str "ts"⟩
        [⟨str "bar"⟩]).cache.lookup
        (c3key (str "foo") (str "") (str "ts") (str "bar") 3) = none ∧
    (CompletionsCache.new.add (str "id") ⟨str "foo", str "", str "ts"⟩
        [⟨str "bar"⟩]).cache.entries.length = (str "bar").length ∧
    ((CompletionsCache.new.add (str "id") ⟨str "foo", str "", str "ts"⟩
        [⟨str "bar"⟩]).get
        ⟨⟨str "foo" ++ str "bar", str "", str "ts"⟩, false⟩).1 = none :=
  ⟨(C3_theorem (str "foo") (str "") (str "ts") (str "id") (str "bar")
      (by decide) (by decide) (by decide) (by decide)).1 1 (by decide),
   ((C3_theorem (str "foo") (str "") (str "ts") (str "id") (str "bar")
      (by decide) (by decide) (by decide) (by decide)).2.1 : _),
   (C3_theorem (str "foo") (str "") (str "ts") (str "id") (str "bar")
      (by decide) (by decide) (by decide) (by decide)).2.2.1,
   (C3_theorem (str "foo") (str "") (str "ts") (str "id") (str "bar")
      (by decide) (by decide) (by decide) (by decide)).2.2.2 (by decide)⟩

/-! ### Concrete caches used by the scenario claims -/

/-- The cache of spec scenario P2: one `add` of completion `"bar\nbaz"`
against document state `{prefix: "foo", suffix: "", languageId: "ts"}`. -/
def p2cache : CompletionsCache :=
  CompletionsCache.new.add (str "id") ⟨str "foo", str "", str "ts"⟩
    [⟨str "bar\nbaz"⟩]

/-- The cache of spec scenario P3: one `add` of completion `"\nindented"`
against document state `{prefix: "x", suffix: "", languageId: "ts"}`. -/
def p3cache : CompletionsCache :=
  CompletionsCache.new.add (str "id") ⟨str "x", str "", str "ts"⟩
    [⟨str "\nindented"⟩]

/-- The cache of spec scenario P4: one `add` of completion `"bar"` against
document state `{prefix: "foo   ", suffix: "", languageId: "ts"}` whose
prefix carries trailing whitespace on its last line. -/
def p4cache : CompletionsCache :=
  CompletionsCache.new.add (str "id") ⟨str "foo   ", str "", str "ts"⟩
    [⟨str "bar"⟩]

/-! ### C1 — incremental hits after `add` of `"bar\nbaz"` -/

/-- C1, counterexample: the claim says the hit at prefix `"foo"` carries the
single cached completion content `"bar"`; the code stores the full remaining
content `"bar\nbaz"` (the per-offset insertion stores
`completion.content.slice(i)`, which keeps all later lines), so the claim is
false at this input. -/
theorem C1_counterexample :
    (p2cache.get ⟨⟨str "foo", str "", str "ts"⟩, false⟩).1 =
      some ⟨str "id", [⟨str "bar\nbaz"⟩]⟩ ∧
    str "bar\nbaz" ≠ str "bar" := by decide

/-- C1, amended: after `add(logId, {prefix:"foo", suffix:"", languageId:"ts"},
[{content:"bar\nbaz"}])`, the lookups at prefixes `"foo"`, `"foob"`,
`"fooba"` and `"foobar"` (same suffix and language, default mode) all hit
with single cached completion contents `"bar\nbaz"`, `"ar\nbaz"`, `"r\nbaz"`
and `"\nbaz"` respectively — the whole remaining content, not just the rest
of the first line — and `"foobarb"` misses. -/
theorem C1_amended_theorem :
    (p2cache.get ⟨⟨str "foo", str "", str "ts"⟩, false⟩).1 =
      some ⟨str "id", [⟨str "bar\nbaz"⟩]⟩ ∧
    (p2cache.get ⟨⟨str "foob", str "", str "ts"⟩, false⟩).1 =
      some ⟨str "id", [⟨str "ar\nbaz"⟩]⟩ ∧
    (p2cache.get ⟨⟨str "fooba", str "", str "ts"⟩, false⟩).1 =
      some ⟨str "id", [⟨str "r\nbaz"⟩]⟩ ∧
    (p2cache.get ⟨⟨str "foobar", str "", str "ts"⟩, false⟩).1 =
      some ⟨str "id", [⟨str "\nbaz"⟩]⟩ ∧
    (p2cache.get ⟨⟨str "foobarb", str "", str "ts"⟩, false⟩).1 = none := by
  decide

/-! ### C2 — `getArtificialDelay` is constant -/

/-- C2: for every language id, every (present or absent) completion intent
and either value of the disable flag, `getArtificialDelay` returns the fixed
maximum-delay constant 1400; in particular `"yaml"` and `"typescript"` give
the same value and the flag never changes the result. -/
theorem C2_theorem (params : ArtificialDelayParams) :
    getArtificialDelay params = 1400 := by
  unfold getArtificialDelay
  dsimp only [defaultLatencies]
  split
  · split <;> rfl
  · rfl

/-! ### C8 — completion beginning with a newline -/

/-- C8: for a completion beginning with a newline, incremental caching
starts after that newline: after `add(id, {prefix:"x", suffix:"",
languageId:"ts"}, [{content:"\nindented"}])`, the lookups at prefixes
`"x"`, `"x\n"` and `"x\nin"` hit with contents `"\nindented"`, `"indented"`
and `"dented"` respectively. -/
theorem C8_theorem :
    (p3cache.get ⟨⟨str "x", str "", str "ts"⟩, false⟩).1 =
      some ⟨str "id", [⟨str "\nindented"⟩]⟩ ∧
    (p3cache.get ⟨⟨str "x\n", str "", str "ts"⟩, false⟩).1 =
      some ⟨str "id", [⟨str "indented"⟩]⟩ ∧
    (p3cache.get ⟨⟨str "x\nin", str "", str "ts"⟩, false⟩).1 =
      some ⟨str "id", [⟨str "dented"⟩]⟩ := by decide

/-! ### C6 — trailing-whitespace trim and the exact-prefix entry -/

/-- C6: after `add` with the whitespace-suffixed prefix `"foo   "`, a
default-mode lookup at the trimmed prefix `"foo"` hits; an exact-prefix
lookup at the untrimmed `"foo   "` hits the separately cached entry storing
the completion unmodified; and an exact-prefix lookup at the different
whitespace variant `"foo  "` misses. -/
theorem C6_theorem :
    (p4cache.get ⟨⟨str "foo", str "", str "ts"⟩, false⟩).1 =
      some ⟨str "id", [⟨str "bar"⟩]⟩ ∧
    (p4cache.get ⟨⟨str "foo   ", str "", str "ts"⟩, true⟩).1 =
      some ⟨str "id", [⟨str "bar"⟩]⟩ ∧
    (p4cache.get ⟨⟨str "foo  ", str "", str "ts"⟩, true⟩).1 = none := by
  decide
